import Mathlib

/-!
Shallow embedding of the `card_games` Blackjack engine.

The definitions below translate the Rust sources:
  * `src/card_games/src/cards/card.rs`   — `Suit`, `Value`, `Card`
  * `src/card_games/src/game/blackjack/rules.rs` — scoring rules
  * `src/card_games/src/game/blackjack/types.rs` — state, shoe, table, results
  * `src/card_games/src/bank/bank.rs`    — `Bank`
  * `src/card_games/src/game/blackjack/blackjack.rs` — the round state machine
  * `src/card_games/src/game/blackjack/view.rs` — the view projection

A `Hand` (a Rust `Vec<Card>` wrapper) is a `List Card`; `Hand::add` pushes
to the back, so it is `· ++ [c]`.  The shoe is represented by the list of
its cards in draw order (the Rust `Deck` stores them reversed and pops from
the back of its `Vec`; only the draw order is observable by the engine).
Rust panics (out-of-bounds indexing, drawing from an empty shoe) are
modelled by `Option.none`; machine integers (`u8`, `u32`) are modelled by
`Nat` — no reachable computation of the engine approaches their ranges.
-/

namespace CardGames

/-- Card suits, from `cards/card.rs` (`Suit`). -/
inductive Suit where
  | clubs | diamonds | hearts | spades | joker
deriving DecidableEq, Repr

/-- Card values, from `cards/card.rs` (`Value`). -/
inductive Value where
  | ace | two | three | four | five | six | seven
  | eight | nine | ten | jack | queen | king | joker
deriving DecidableEq, Repr

/-- A playing card, from `cards/card.rs` (`Card`). -/
structure Card where
  suit : Suit
  value : Value
deriving DecidableEq, Repr

/-- Blackjack value of a card, from `rules.rs` (`card_value`). -/
def card_value (c : Card) : Nat :=
  match c.value with
  | .ace => 11
  | .two => 2
  | .three => 3
  | .four => 4
  | .five => 5
  | .six => 6
  | .seven => 7
  | .eight => 8
  | .nine => 9
  | .ten | .jack | .queen | .king => 10
  | .joker => 0

/-- The fold inside `hand_score` (`rules.rs`): accumulates the raw score
(aces at 11) and the number of aces. -/
def scoreFold (hand : List Card) : Nat × Nat :=
  hand.foldl
    (fun p c => (p.1 + card_value c, p.2 + (if c.value = Value.ace then 1 else 0)))
    (0, 0)

/-- The `while score > 21 && ace_count > 0` loop of `hand_score`
(`rules.rs`): subtract 10 per demoted ace. -/
def adjustAces (score : Nat) : Nat → Nat
  | 0 => score
  | aces + 1 => if 21 < score then adjustAces (score - 10) aces else score

/-- Hand score, from `rules.rs` (`hand_score`). -/
def hand_score (hand : List Card) : Nat :=
  let p := scoreFold hand
  adjustAces p.1 p.2

/-- Dealer hit policy, from `rules.rs` (`dealer_should_hit`). -/
def dealer_should_hit (hand : List Card) : Bool :=
  hand_score hand < 17

/-- Bust test, from `rules.rs` (`is_bust`). -/
def is_bust (hand : List Card) : Bool :=
  21 < hand_score hand

/-- Natural-blackjack test, from `rules.rs` (`is_blackjack`). -/
def is_blackjack (hand : List Card) : Bool :=
  hand.length = 2 && hand_score hand = 21

/-- Raw score of a hand: every card at its fixed `card_value` (aces at 11). -/
def baseScore (hand : List Card) : Nat :=
  (hand.map card_value).sum

/-- Number of aces in a hand. -/
def aceCount (hand : List Card) : Nat :=
  (hand.filter (fun c => c.value = Value.ace)).length

/-- Hard total of a hand: aces at 1, every other card at its fixed value. -/
def hardTotal (hand : List Card) : Nat :=
  (hand.map (fun c => if c.value = Value.ace then 1 else card_value c)).sum

theorem scoreFold_cons (c : Card) (hand : List Card) (a b : Nat) :
    hand.foldl
      (fun p x => (p.1 + card_value x, p.2 + (if x.value = Value.ace then 1 else 0)))
      (a, b)
    = (a + baseScore hand, b + aceCount hand) := by
  induction hand generalizing a b with
  | nil => simp [baseScore, aceCount]
  | cons d rest ih =>
    simp only [List.foldl_cons, ih, baseScore, aceCount, List.map_cons, List.sum_cons,
      List.filter_cons]
    refine Prod.ext ?_ ?_
    · simp; omega
    · by_cases h : d.value = Value.ace <;> simp [h] <;> omega

theorem scoreFold_eq (hand : List Card) :
    scoreFold hand = (baseScore hand, aceCount hand) := by
  have h := scoreFold_cons ⟨Suit.clubs, Value.two⟩ hand 0 0
  simpa [scoreFold] using h

theorem baseScore_eq (hand : List Card) :
    baseScore hand = hardTotal hand + 10 * aceCount hand := by
  induction hand with
  | nil => simp [baseScore, hardTotal, aceCount]
  | cons c rest ih =>
    simp only [baseScore, hardTotal, aceCount, List.map_cons, List.sum_cons,
      List.filter_cons] at *
    by_cases h : c.value = Value.ace <;> simp [h, card_value] at * <;> omega

theorem hand_score_eq (hand : List Card) :
    hand_score hand = adjustAces (hardTotal hand + 10 * aceCount hand) (aceCount hand) := by
  simp [hand_score, scoreFold_eq, baseScore_eq]

/-- When the hard total already busts, the while loop demotes every ace and
returns the hard total. -/
theorem adjustAces_hard (k hard : Nat) (h : 21 < hard) :
    adjustAces (hard + 10 * k) k = hard := by
  induction k with
  | zero => simp [adjustAces]
  | succ n ih =>
    have h21 : 21 < hard + 10 * (n + 1) := by omega
    have hsub : hard + 10 * (n + 1) - 10 = hard + 10 * n := by omega
    simp [adjustAces, h21, hsub, ih]

/-- When some demotion count lands at or below 21, the loop stops at the
largest achievable total `≤ 21`. -/
theorem adjustAces_soft (k hard : Nat) (h : hard ≤ 21) :
    ∃ j, j ≤ k ∧ adjustAces (hard + 10 * k) k = hard + 10 * j ∧
      hard + 10 * j ≤ 21 ∧
      ∀ j', j' ≤ k → hard + 10 * j' ≤ 21 → hard + 10 * j' ≤ hard + 10 * j := by
  induction k with
  | zero =>
    refine ⟨0, le_refl 0, by simp [adjustAces], by omega, ?_⟩
    intro j' hj' _
    omega
  | succ n ih =>
    by_cases hb : 21 < hard + 10 * (n + 1)
    · obtain ⟨j, hjk, heq, hle, hmax⟩ := ih
      have hsub : hard + 10 * (n + 1) - 10 = hard + 10 * n := by omega
      refine ⟨j, by omega, ?_, hle, ?_⟩
      · simp [adjustAces, hb, hsub, heq]
      · intro j' hj' hle'
        have : j' ≤ n := by omega
        exact hmax j' this hle'
    · push_neg at hb
      refine ⟨n + 1, le_refl _, ?_, hb, ?_⟩
      · simp [adjustAces, not_lt.mpr hb]
      · intro j' hj' _
        omega

/-- Modelled from the spec: `SplitContext` is referenced by
`blackjack.rs` (`rules::SplitContext`) but its definition is not under
`src/`; §4.1 describes the two contexts (`NoPreviousSplit` vs. a hand that
is itself the product of a split). -/
inductive SplitContext where
  | noPreviousSplit
  | alreadySplit
deriving DecidableEq, Repr

/-- Modelled from the spec: `can_double(hand) -> bool` (§4.1, "exactly 2
cards and hand not yet complete") is referenced by `blackjack.rs`
(`rules::can_double`) but missing from `src/`.  The call sites pass only
the card list and consult it only for the hand whose turn is active, so
the completion condition lives at the caller; over the cards the check is
`exactly 2 cards`. -/
def can_double (hand : List Card) : Bool :=
  hand.length = 2

/-- Modelled from the spec: `can_split(hand, context) -> bool` (§4.1,
"exactly 2 cards of equal rank AND `context == NoPreviousSplit`") is
referenced by `blackjack.rs` (`rules::can_split`) but missing from
`src/`. -/
def can_split (hand : List Card) (ctx : SplitContext) : Bool :=
  match hand with
  | [a, b] => a.value = b.value && ctx = SplitContext.noPreviousSplit
  | _ => false

/-- Modelled from the spec: `Bet` (§3, "a positive integer wager amount
attached to exactly one PlayerHand") is referenced by `types.rs`
(`bank::bet::Bet`, field `amount`) but `bank/bet.rs` is missing from
`src/`. -/
structure Bet where
  amount : Nat
deriving DecidableEq, Repr

/-- A wagered player hand, from `types.rs` (`PlayerHand`). -/
structure PlayerHand where
  hand : List Card
  bet : Bet
  is_complete : Bool
deriving DecidableEq, Repr

/-- `PlayerHand::new`, from `types.rs`. -/
def PlayerHand.new (bet_amount : Nat) : PlayerHand :=
  { hand := [], bet := { amount := bet_amount }, is_complete := false }

/-- The table, from `types.rs` (`Table`). -/
structure Table where
  player_hands : List PlayerHand
  dealer_hand : List Card
deriving DecidableEq, Repr

/-- The bankroll, from `bank/bank.rs` (`Bank`). -/
structure Bank where
  balance : Nat
deriving DecidableEq, Repr

/-- `Bank::withdraw`: returns whether it succeeded and the resulting bank
(unchanged on failure), from `bank/bank.rs`. -/
def Bank.withdraw (b : Bank) (amount : Nat) : Bool × Bank :=
  if amount ≤ b.balance then (true, { balance := b.balance - amount })
  else (false, b)

/-- `Bank::deposit`, from `bank/bank.rs`. -/
def Bank.deposit (b : Bank) (amount : Nat) : Bank :=
  { balance := b.balance + amount }

/-- Round phase, from `types.rs` (`BlackjackState`). -/
inductive BlackjackState where
  | dealing
  | playerTurn (hand_index : Nat)
  | dealerTurn
  | roundOver
deriving DecidableEq, Repr

/-- Player actions, from `types.rs` (`PlayerAction`). -/
inductive PlayerAction where
  | hit | stay | double | split
deriving DecidableEq, Repr

/-- Round result, from `types.rs` (`GameResult`). -/
inductive GameResult where
  | pending | playerWin | dealerWin | push
deriving DecidableEq, Repr

/-- `GameResult::determine`, from `types.rs`. -/
def GameResult.determine (player dealer : Nat) : GameResult :=
  if 21 < player then .dealerWin
  else if 21 < dealer then .playerWin
  else if dealer < player then .playerWin
  else if player < dealer then .dealerWin
  else .push

/-- Engine events, from `types.rs` (`BlackjackEvent`). -/
inductive BEvent where
  | actionApplied (action : PlayerAction)
  | actionIgnored (action : PlayerAction) (state : BlackjackState)
  | stateChanged (from_ to_ : BlackjackState)
  | roundResolved (result : GameResult)
  | roundStarted
  | roundStartIgnored (state : BlackjackState)
deriving DecidableEq, Repr

/-- The round state machine's owned state, from `blackjack.rs`
(`struct Blackjack`).  The shoe is the list of undealt cards in draw
order. -/
structure Game where
  state : BlackjackState
  shoe : List Card
  table : Table
  bank : Bank
  result : GameResult
deriving DecidableEq, Repr

namespace Game

/-- `Blackjack::new` (`blackjack.rs`), parametrised by the shuffled shoe
(`Shoe::new_shuffled` produces a random permutation; the embedding takes
the resulting draw order as an argument). -/
def new (shoe : List Card) : Game :=
  { state := .dealing
    shoe := shoe
    table := { player_hands := [PlayerHand.new 10], dealer_hand := [] }
    bank := { balance := 1000 }
    result := .pending }

/-- `Blackjack::transition_to` (`blackjack.rs`): change phase, emitting a
`StateChanged` event when the phase actually changes. -/
def transitionTo (g : Game) (next : BlackjackState) : Game × List BEvent :=
  ({ g with state := next },
   if g.state = next then [] else [.stateChanged g.state next])

/-- `Blackjack::set_result` (`blackjack.rs`). -/
def setResult (g : Game) (r : GameResult) : Game × List BEvent :=
  ({ g with result := r },
   if r = GameResult.pending then [] else [.roundResolved r])

/-- `Blackjack::current_hand_idx` (`blackjack.rs`). -/
def currentHandIdx (g : Game) : Nat :=
  match g.state with
  | .playerTurn i => i
  | _ => 0

/-- `Blackjack::split_context` (`blackjack.rs`). -/
def splitContext (g : Game) : SplitContext :=
  if 1 < g.table.player_hands.length then .alreadySplit else .noPreviousSplit

/-- `Blackjack::resolve_blackjack_or_continue` (`blackjack.rs`).  Indexing
`player_hands[0]` on an empty table would panic, hence `Option`. -/
def resolveBlackjackOrContinue (g : Game) : Option (Game × List BEvent) :=
  match g.table.player_hands with
  | [] => none
  | p :: _ =>
    match is_blackjack p.hand, is_blackjack g.table.dealer_hand with
    | true, true =>
      let g1 := { g with bank := g.bank.deposit p.bet.amount }
      let r := setResult g1 .push
      let t := transitionTo r.1 .roundOver
      some (t.1, r.2 ++ t.2)
    | true, false =>
      let payout := p.bet.amount + p.bet.amount * 3 / 2
      let g1 := { g with bank := g.bank.deposit payout }
      let r := setResult g1 .playerWin
      let t := transitionTo r.1 .roundOver
      some (t.1, r.2 ++ t.2)
    | false, true =>
      let r := setResult g .dealerWin
      let t := transitionTo r.1 .roundOver
      some (t.1, r.2 ++ t.2)
    | false, false =>
      some (transitionTo g (.playerTurn 0))

/-- `Blackjack::deal_initial_cards` (`blackjack.rs`): two draws into player
hand 0, then two into the dealer hand, then evaluate naturals.  Drawing
from a shoe with fewer than four cards, or indexing an empty
`player_hands`, panics (`none`). -/
def dealInitialCards (g : Game) : Option (Game × List BEvent) :=
  match g.table.player_hands, g.shoe with
  | p :: ps, c1 :: c2 :: c3 :: c4 :: rest =>
    let p' := { p with hand := p.hand ++ [c1, c2] }
    resolveBlackjackOrContinue
      { g with
          shoe := rest
          table :=
            { player_hands := p' :: ps
              dealer_hand := g.table.dealer_hand ++ [c3, c4] } }
  | _, _ => none

/-- The `while rules::dealer_should_hit` draw loop of
`Blackjack::play_dealer` (`blackjack.rs`): keep drawing while the policy
says hit; drawing from an empty shoe panics (`none`). -/
def dealerDraw (dealer : List Card) : List Card → Option (List Card × List Card)
  | [] => if dealer_should_hit dealer then none else some (dealer, [])
  | c :: rest =>
    if dealer_should_hit dealer then dealerDraw (dealer ++ [c]) rest
    else some (dealer, c :: rest)

/-- One hand's settlement inside `Blackjack::resolve_round`
(`blackjack.rs`): the per-hand result, the deposit, and the win/push/loss
flags, folded over the hands in order. -/
def settleHands (dealerScore : Nat) (dealerBust : Bool) :
    List PlayerHand → Bank → Bank × (Bool × Bool × Bool)
  | [], bank => (bank, (false, false, false))
  | h :: rest, bank =>
    let r :=
      if is_bust h.hand then GameResult.dealerWin
      else if dealerBust then GameResult.playerWin
      else GameResult.determine (hand_score h.hand) dealerScore
    let step : Bank × (Bool × Bool × Bool) :=
      match r with
      | .playerWin => (bank.deposit (h.bet.amount * 2), (true, false, false))
      | .push => (bank.deposit h.bet.amount, (false, true, false))
      | .dealerWin => (bank, (false, false, true))
      | .pending => (bank, (false, false, false))
    let tail := settleHands dealerScore dealerBust rest step.1
    (tail.1,
     (step.2.1 || tail.2.1, step.2.2.1 || tail.2.2.1, step.2.2.2 || tail.2.2.2))

/-- `Blackjack::resolve_round` (`blackjack.rs`): settle every hand, collapse
to a round-level result, and enter `RoundOver`. -/
def resolveRound (g : Game) : Game × List BEvent :=
  let dealerScore := hand_score g.table.dealer_hand
  let dealerBust := is_bust g.table.dealer_hand
  let s := settleHands dealerScore dealerBust g.table.player_hands g.bank
  let anyWin := s.2.1
  let anyPush := s.2.2.1
  let anyLoss := s.2.2.2
  let result :=
    if anyWin && !anyLoss then GameResult.playerWin
    else if anyLoss && !anyWin && !anyPush then GameResult.dealerWin
    else if anyPush && !anyWin && !anyLoss then GameResult.push
    else if anyWin || anyPush || anyLoss then GameResult.push
    else GameResult.pending
  let g1 := { g with bank := s.1 }
  let r := setResult g1 result
  let t := transitionTo r.1 .roundOver
  (t.1, r.2 ++ t.2)

/-- `Blackjack::play_dealer` (`blackjack.rs`). -/
def playDealer (g : Game) : Option (Game × List BEvent) :=
  (dealerDraw g.table.dealer_hand g.shoe).map fun d =>
    resolveRound { g with table := { g.table with dealer_hand := d.1 }, shoe := d.2 }

/-- The `enumerate().skip(next).find(|h| !h.is_complete)` search of
`Blackjack::advance_player_turn_or_dealer` (`blackjack.rs`): the least
index `≥ start` of an incomplete hand. -/
def firstIncompleteFrom : List PlayerHand → Nat → Option Nat
  | [], _ => none
  | h :: rest, 0 =>
    if h.is_complete then (firstIncompleteFrom rest 0).map (· + 1) else some 0
  | _ :: rest, s + 1 => (firstIncompleteFrom rest s).map (· + 1)

/-- `Blackjack::advance_player_turn_or_dealer` (`blackjack.rs`). -/
def advancePlayerTurnOrDealer (g : Game) (idx : Nat) : Game × List BEvent :=
  match firstIncompleteFrom g.table.player_hands (idx + 1) with
  | some j => transitionTo g (.playerTurn j)
  | none => transitionTo g .dealerTurn

/-- `Blackjack::handle_player_turn` (`blackjack.rs`): applies one action to
`player_hands[idx]`; returns whether the action was handled.  Out-of-bounds
indexing and shoe exhaustion panic (`none`). -/
def handlePlayerTurn (g : Game) (idx : Nat) (action : PlayerAction) :
    Option (Bool × Game × List BEvent) :=
  match g.table.player_hands.get? idx with
  | none => none
  | some h =>
    match action with
    | .hit =>
      match g.shoe with
      | [] => none
      | c :: rest =>
        let h' := { h with hand := h.hand ++ [c] }
        let g1 :=
          { g with
              shoe := rest
              table := { g.table with player_hands := g.table.player_hands.set idx h' } }
        if is_bust h'.hand then
          let h2 := { h' with is_complete := true }
          let g2 :=
            { g1 with
                table := { g1.table with player_hands := g1.table.player_hands.set idx h2 } }
          let a := advancePlayerTurnOrDealer g2 idx
          some (true, a.1, a.2)
        else some (true, g1, [])
    | .stay =>
      let h' := { h with is_complete := true }
      let g1 :=
        { g with table := { g.table with player_hands := g.table.player_hands.set idx h' } }
      let a := advancePlayerTurnOrDealer g1 idx
      some (true, a.1, a.2)
    | .double =>
      if can_double h.hand then
        match g.bank.withdraw h.bet.amount with
        | (false, _) => some (false, g, [])
        | (true, bank') =>
          match g.shoe with
          | [] => none
          | c :: rest =>
            let h' :=
              { h with
                  bet := { amount := h.bet.amount * 2 }
                  hand := h.hand ++ [c]
                  is_complete := true }
            let g1 :=
              { g with
                  bank := bank'
                  shoe := rest
                  table := { g.table with player_hands := g.table.player_hands.set idx h' } }
            let a := advancePlayerTurnOrDealer g1 idx
            some (true, a.1, a.2)
      else some (false, g, [])
    | .split =>
      if can_split h.hand (splitContext g) then
        if g.bank.balance < h.bet.amount then some (false, g, [])
        else
          match g.bank.withdraw h.bet.amount with
          | (false, _) => some (false, g, [])
          | (true, bank') =>
            match h.hand.get? 0, h.hand.get? 1 with
            | some c0, some c1 =>
              match g.shoe with
              | n1 :: n2 :: rest =>
                let h1 := { h with hand := [c0, n1] }
                let newHand : PlayerHand :=
                  { hand := [c1, n2], bet := { amount := h.bet.amount }, is_complete := false }
                let g1 :=
                  { g with
                      bank := bank'
                      shoe := rest
                      table :=
                        { g.table with
                            player_hands := g.table.player_hands.set idx h1 ++ [newHand] } }
                let t := transitionTo g1 (.playerTurn 0)
                some (true, t.1, t.2)
              | _ => none
            | _, _ => none
      else some (false, g, [])

/-- The `loop` of `Blackjack::advance_automatic_transitions`
(`blackjack.rs`), written with fuel.  `deal_initial_cards` always leaves
`PlayerTurn`/`RoundOver` and `play_dealer` always leaves `RoundOver`, so
fuel 3 covers every run of the source's loop. -/
def advanceAutoFuel : Nat → Game → Option (Game × List BEvent)
  | 0, _ => none
  | n + 1, g =>
    match g.state with
    | .dealing =>
      (dealInitialCards g).bind fun p =>
        (advanceAutoFuel n p.1).map fun q => (q.1, p.2 ++ q.2)
    | .dealerTurn =>
      (playDealer g).bind fun p =>
        (advanceAutoFuel n p.1).map fun q => (q.1, p.2 ++ q.2)
    | _ => some (g, [])

/-- `Blackjack::advance_automatic_transitions` (`blackjack.rs`). -/
def advanceAuto (g : Game) : Option (Game × List BEvent) :=
  advanceAutoFuel 3 g

/-- `Blackjack::start_round` (`blackjack.rs`): reset the table, withdraw
the default bet (10), then run the automatic transitions; a failed
withdrawal returns with the round left in `Dealing`. -/
def startRound (g : Game) : Option (Game × List BEvent) :=
  let ph := PlayerHand.new 10
  let g0 :=
    { g with
        table := { player_hands := [ph], dealer_hand := [] }
        result := .pending }
  let t := transitionTo g0 .dealing
  match t.1.bank.withdraw ph.bet.amount with
  | (false, _) => some (t.1, t.2)
  | (true, bank') =>
    (advanceAuto { t.1 with bank := bank' }).map fun q => (q.1, t.2 ++ q.2)

/-- `Blackjack::needs_shuffle` (`blackjack.rs`). -/
def needsShuffle (g : Game) : Bool :=
  g.shoe.length < 15

/-- `Blackjack::apply` (`blackjack.rs`). -/
def apply (g : Game) (action : PlayerAction) : Option (Game × List BEvent) :=
  match g.state with
  | .playerTurn hand_index =>
    (handlePlayerTurn g hand_index action).bind fun r =>
      if r.1 then
        (advanceAuto r.2.1).map fun q =>
          (q.1, BEvent.actionApplied action :: (r.2.2 ++ q.2))
      else some (r.2.1, r.2.2 ++ [.actionIgnored action g.state])
  | _ => some (g, [.actionIgnored action g.state])

/-- `Blackjack::request_new_round` (`blackjack.rs`), parametrised by the
fresh shuffled shoe used when the reshuffle threshold is hit. -/
def requestNewRound (g : Game) (fresh : List Card) : Option (Game × List BEvent) :=
  if g.state = BlackjackState.roundOver then
    let g1 := if needsShuffle g then { g with shoe := fresh } else g
    (startRound g1).map fun q => (q.1, BEvent.roundStarted :: q.2)
  else some (g, [.roundStartIgnored g.state])

end Game

/-- A card as reported by the view, from `view.rs` (`VisibleCard`). -/
inductive VisibleCard where
  | faceUp (card : Card)
  | faceDown
deriving DecidableEq, Repr

/-- Per-hand view, from `view.rs` (`PlayerHandView`). -/
structure PlayerHandView where
  cards : List VisibleCard
  score : Nat
  bet_amount : Nat
  is_complete : Bool
deriving DecidableEq, Repr

/-- The display snapshot, from `view.rs` (`BlackjackView`); `total_bet` is
the field `Blackjack::view` fills in `blackjack.rs`. -/
structure BlackjackView where
  available_actions : List PlayerAction
  phase : BlackjackState
  player_hands : List PlayerHandView
  active_hand_index : Nat
  dealer_cards : List VisibleCard
  dealer_visible_score : Option Nat
  dealer_has_hidden_card : Bool
  bank_balance : Nat
  total_bet : Nat
  result : GameResult
  can_hit : Bool
  can_stay : Bool
  can_start_new_round : Bool
deriving DecidableEq, Repr

namespace Game

/-- `Blackjack::available_actions` (`blackjack.rs`): inserting at index 0
in the order Stay, Hit, Double, Split produces `[Split?, Double?, Hit,
Stay]`.  Indexing the current hand panics out of bounds (`none`). -/
def availableActions (g : Game) : Option (List PlayerAction) :=
  match g.state with
  | .playerTurn _ =>
    match g.table.player_hands.get? (currentHandIdx g) with
    | none => none
    | some h =>
      let base := [PlayerAction.hit, PlayerAction.stay]
      let withDouble :=
        if can_double h.hand && h.bet.amount ≤ g.bank.balance then
          PlayerAction.double :: base
        else base
      let withSplit :=
        if can_split h.hand (splitContext g) && h.bet.amount ≤ g.bank.balance then
          PlayerAction.split :: withDouble
        else withDouble
      some withSplit
  | _ => some []

/-- The dealer-facing part of `Blackjack::view` (`blackjack.rs`): visible
cards, displayed score, hidden-card flag, by phase. -/
def dealerProjection (g : Game) : List VisibleCard × Option Nat × Bool :=
  match g.state with
  | .dealing | .playerTurn _ =>
    let visible := g.table.dealer_hand.drop 1
    let visibleScore := if visible.isEmpty then none else some (hand_score visible)
    let cards :=
      g.table.dealer_hand.enum.map fun p =>
        if p.1 = 0 then VisibleCard.faceDown else VisibleCard.faceUp p.2
    (cards, visibleScore, true)
  | .dealerTurn | .roundOver =>
    (g.table.dealer_hand.map .faceUp, some (hand_score g.table.dealer_hand), false)

/-- `Blackjack::view` (`blackjack.rs`). -/
def view (g : Game) : Option BlackjackView :=
  (availableActions g).map fun controls =>
    let d := dealerProjection g
    { available_actions := controls
      phase := g.state
      player_hands :=
        g.table.player_hands.map fun h =>
          { cards := h.hand.map .faceUp
            score := hand_score h.hand
            bet_amount := h.bet.amount
            is_complete := h.is_complete }
      active_hand_index := currentHandIdx g
      dealer_cards := d.1
      dealer_visible_score := d.2.1
      dealer_has_hidden_card := d.2.2
      bank_balance := g.bank.balance
      total_bet := (g.table.player_hands.map (fun h => h.bet.amount)).sum
      result := g.result
      can_hit := match g.state with | .playerTurn _ => true | _ => false
      can_stay := match g.state with | .playerTurn _ => true | _ => false
      can_start_new_round := g.state = BlackjackState.roundOver }

end Game

/-! ## Claim theorems -/

/-- C1: for every hand with `k` aces, `hand_score` is the maximum total
`≤ 21` obtained by counting some aces as 1 and the rest as 11 (totals of
the form `hardTotal + 10·j`, `j ≤ k`); when no such total is `≤ 21`
(equivalently the hard total itself exceeds 21), `hand_score` is the hard
total and `is_bust` holds. -/
theorem hand_score_is_best_ace_choice (hand : List Card) :
    (hardTotal hand ≤ 21 →
      hand_score hand ≤ 21 ∧
      (∃ j, j ≤ aceCount hand ∧ hand_score hand = hardTotal hand + 10 * j) ∧
      (∀ j, j ≤ aceCount hand → hardTotal hand + 10 * j ≤ 21 →
        hardTotal hand + 10 * j ≤ hand_score hand)) ∧
    (21 < hardTotal hand → hand_score hand = hardTotal hand ∧ is_bust hand = true) := by
  constructor
  · intro hle
    obtain ⟨j, hjk, heq, hle21, hmax⟩ := adjustAces_soft (aceCount hand) (hardTotal hand) hle
    rw [hand_score_eq, heq]
    exact ⟨hle21, ⟨j, hjk, rfl⟩, fun j' hj' h' => hmax j' hj' h'⟩
  · intro hgt
    have h := adjustAces_hard (aceCount hand) (hardTotal hand) hgt
    rw [hand_score_eq, h]
    refine ⟨rfl, ?_⟩
    simp only [is_bust, hand_score_eq, h]
    exact decide_eq_true hgt

/-- Concrete instance of C1 at the hand A♠ A♥ 9♣ (hard total 11, two
aces): the score is 21 and every soft option `≤ 21` is dominated. -/
theorem hand_score_is_best_ace_choice_witness :
    hardTotal [⟨Suit.spades, Value.ace⟩, ⟨Suit.hearts, Value.ace⟩, ⟨Suit.clubs, Value.nine⟩] ≤ 21 ∧
    (hand_score [⟨Suit.spades, Value.ace⟩, ⟨Suit.hearts, Value.ace⟩, ⟨Suit.clubs, Value.nine⟩] ≤ 21 ∧
      (∃ j, j ≤ aceCount [⟨Suit.spades, Value.ace⟩, ⟨Suit.hearts, Value.ace⟩, ⟨Suit.clubs, Value.nine⟩] ∧
        hand_score [⟨Suit.spades, Value.ace⟩, ⟨Suit.hearts, Value.ace⟩, ⟨Suit.clubs, Value.nine⟩]
          = hardTotal [⟨Suit.spades, Value.ace⟩, ⟨Suit.hearts, Value.ace⟩, ⟨Suit.clubs, Value.nine⟩] + 10 * j) ∧
      (∀ j, j ≤ aceCount [⟨Suit.spades, Value.ace⟩, ⟨Suit.hearts, Value.ace⟩, ⟨Suit.clubs, Value.nine⟩] →
        hardTotal [⟨Suit.spades, Value.ace⟩, ⟨Suit.hearts, Value.ace⟩, ⟨Suit.clubs, Value.nine⟩] + 10 * j ≤ 21 →
        hardTotal [⟨Suit.spades, Value.ace⟩, ⟨Suit.hearts, Value.ace⟩, ⟨Suit.clubs, Value.nine⟩] + 10 * j
          ≤ hand_score [⟨Suit.spades, Value.ace⟩, ⟨Suit.hearts, Value.ace⟩, ⟨Suit.clubs, Value.nine⟩])) :=
  ⟨by decide,
   (hand_score_is_best_ace_choice
     [⟨Suit.spades, Value.ace⟩, ⟨Suit.hearts, Value.ace⟩, ⟨Suit.clubs, Value.nine⟩]).1 (by decide)⟩

/-- The per-hand settlement rule as the spec states it: bust → DealerWin,
else dealer bust → PlayerWin, else compare scores. -/
def perHandOutcome (dealerScore : Nat) (dealerBust : Bool) (h : PlayerHand) : GameResult :=
  if is_bust h.hand then .dealerWin
  else if dealerBust then .playerWin
  else if dealerScore < hand_score h.hand then .playerWin
  else if hand_score h.hand < dealerScore then .dealerWin
  else .push

/-- The per-hand deposit the spec states: win deposits `2×bet`, push
deposits `bet`, loss deposits nothing. -/
def payoutOf (r : GameResult) (bet : Nat) : Nat :=
  match r with
  | .playerWin => 2 * bet
  | .push => bet
  | _ => 0

theorem determine_eq_compare (player dealer : Nat) (hp : player ≤ 21) (hd : dealer ≤ 21) :
    GameResult.determine player dealer =
      (if dealer < player then GameResult.playerWin
       else if player < dealer then GameResult.dealerWin
       else GameResult.push) := by
  simp [GameResult.determine, Nat.not_lt.mpr hp, Nat.not_lt.mpr hd]

theorem settleHands_step_outcome (ds : Nat) (db : Bool) (h : PlayerHand)
    (hds : db = false → ds ≤ 21) :
    (if is_bust h.hand then GameResult.dealerWin
     else if db then GameResult.playerWin
     else GameResult.determine (hand_score h.hand) ds) = perHandOutcome ds db h := by
  by_cases hb : is_bust h.hand
  · simp [perHandOutcome, hb]
  · cases hdb : db with
    | true => simp [perHandOutcome, hb, hdb]
    | false =>
      have hp : hand_score h.hand ≤ 21 := by
        simpa [is_bust, Nat.not_lt] using hb
      have hd : ds ≤ 21 := hds hdb
      simp [perHandOutcome, hb, hdb, determine_eq_compare _ _ hp hd]

theorem settleHands_bank (ds : Nat) (db : Bool) (hands : List PlayerHand) (bank : Bank)
    (hds : db = false → ds ≤ 21) :
    (Game.settleHands ds db hands bank).1.balance =
      bank.balance +
        (hands.map (fun h => payoutOf (perHandOutcome ds db h) h.bet.amount)).sum := by
  induction hands generalizing bank with
  | nil => simp [Game.settleHands]
  | cons h rest ih =>
    rw [Game.settleHands]
    rw [settleHands_step_outcome ds db h hds]
    rcases hr : perHandOutcome ds db h with _ | _ | _ | _ <;>
      simp [hr, ih, Bank.deposit, payoutOf] <;> omega

theorem settleHands_flags (ds : Nat) (db : Bool) (hands : List PlayerHand) (bank : Bank)
    (hds : db = false → ds ≤ 21) :
    (Game.settleHands ds db hands bank).2 =
      (hands.any (fun h => perHandOutcome ds db h = .playerWin),
       hands.any (fun h => perHandOutcome ds db h = .push),
       hands.any (fun h => perHandOutcome ds db h = .dealerWin)) := by
  induction hands generalizing bank with
  | nil => simp [Game.settleHands]
  | cons h rest ih =>
    rw [Game.settleHands]
    rw [settleHands_step_outcome ds db h hds]
    rcases hr : perHandOutcome ds db h with _ | _ | _ | _ <;>
      simp [hr, ih]

theorem is_bust_false_imp_le (hand : List Card) (h : is_bust hand = false) :
    hand_score hand ≤ 21 := by
  simpa [is_bust, Nat.not_lt] using h

/-- C2: settlement (run when entering RoundOver from DealerTurn) gives
each hand the result "bust → DealerWin; else dealer bust → PlayerWin; else
compare scores", deposits `2×bet` per winning hand and `bet` per push and
nothing per loss, and leaves the round in RoundOver. -/
theorem resolveRound_settles_per_hand (g : Game) :
    (Game.resolveRound g).1.bank.balance =
      g.bank.balance +
        (g.table.player_hands.map (fun h =>
          payoutOf
            (perHandOutcome (hand_score g.table.dealer_hand) (is_bust g.table.dealer_hand) h)
            h.bet.amount)).sum ∧
    (Game.resolveRound g).1.state = BlackjackState.roundOver := by
  have hds : is_bust g.table.dealer_hand = false → hand_score g.table.dealer_hand ≤ 21 :=
    is_bust_false_imp_le _
  constructor
  · simp [Game.resolveRound, Game.setResult, Game.transitionTo,
      settleHands_bank _ _ _ _ hds]
  · simp [Game.resolveRound, Game.setResult, Game.transitionTo]

/-- The list of per-hand settlement outcomes of a game. -/
def roundOutcomes (g : Game) : List GameResult :=
  g.table.player_hands.map
    (perHandOutcome (hand_score g.table.dealer_hand) (is_bust g.table.dealer_hand))

/-- A settled round with one winning hand ([10♠ 9♠] = 19) and one pushing
hand ([9♥ 9♦] = 18) against a standing dealer ([10♥ 8♣] = 18). -/
def mixedOutcomeGame : Game :=
  { state := .dealerTurn
    shoe := []
    table :=
      { player_hands :=
          [ { hand := [⟨Suit.spades, Value.ten⟩, ⟨Suit.spades, Value.nine⟩]
              bet := { amount := 10 }, is_complete := true }
          , { hand := [⟨Suit.hearts, Value.nine⟩, ⟨Suit.diamonds, Value.nine⟩]
              bet := { amount := 10 }, is_complete := true } ]
        dealer_hand := [⟨Suit.hearts, Value.ten⟩, ⟨Suit.clubs, Value.eight⟩] }
    bank := { balance := 0 }
    result := .pending }

/-- C3 counterexample: a round whose two hands settle to a mixture
(one win, one push) collapses to `PlayerWin`, not to `Push` as the claim
states for every mixture. -/
theorem collapse_mixture_not_push :
    roundOutcomes mixedOutcomeGame = [GameResult.playerWin, GameResult.push] ∧
    (Game.resolveRound mixedOutcomeGame).1.result = GameResult.playerWin ∧
    GameResult.playerWin ≠ GameResult.push := by decide

theorem resolveRound_result_eq (g : Game)
    (w p l : Bool)
    (hflags : (Game.settleHands (hand_score g.table.dealer_hand)
        (is_bust g.table.dealer_hand) g.table.player_hands g.bank).2 = (w, p, l)) :
    (Game.resolveRound g).1.result =
      (if w && !l then GameResult.playerWin
       else if l && !w && !p then GameResult.dealerWin
       else if p && !w && !l then GameResult.push
       else if w || p || l then GameResult.push
       else GameResult.pending) := by
  simp [Game.resolveRound, Game.setResult, Game.transitionTo, hflags]

/-- C3 amended: the collapse maps all-win to PlayerWin and moreover any
win/push mixture with no losing hand to PlayerWin; all-loss (no push, no
win) to DealerWin; all-push to Push; and any mixture containing a loss
together with a win or a push to Push. -/
theorem resolveRound_collapse (g : Game) (hne : g.table.player_hands ≠ []) :
    ((∀ r ∈ roundOutcomes g, r = GameResult.playerWin) →
      (Game.resolveRound g).1.result = GameResult.playerWin) ∧
    ((∀ r ∈ roundOutcomes g, r = GameResult.dealerWin) →
      (Game.resolveRound g).1.result = GameResult.dealerWin) ∧
    ((∀ r ∈ roundOutcomes g, r = GameResult.push) →
      (Game.resolveRound g).1.result = GameResult.push) ∧
    (GameResult.playerWin ∈ roundOutcomes g → GameResult.dealerWin ∉ roundOutcomes g →
      (Game.resolveRound g).1.result = GameResult.playerWin) ∧
    (GameResult.dealerWin ∈ roundOutcomes g →
      (GameResult.playerWin ∈ roundOutcomes g ∨ GameResult.push ∈ roundOutcomes g) →
      (Game.resolveRound g).1.result = GameResult.push) := by
  have hds : is_bust g.table.dealer_hand = false → hand_score g.table.dealer_hand ≤ 21 :=
    is_bust_false_imp_le _
  have hflags := settleHands_flags (hand_score g.table.dealer_hand)
    (is_bust g.table.dealer_hand) g.table.player_hands g.bank hds
  rw [resolveRound_result_eq g _ _ _ hflags]
  have hany : ∀ r : GameResult,
      (g.table.player_hands.any (fun h =>
        perHandOutcome (hand_score g.table.dealer_hand) (is_bust g.table.dealer_hand) h = r))
      = true ↔ r ∈ roundOutcomes g := by
    intro r
    simp only [roundOutcomes, List.any_eq_true, decide_eq_true_eq, List.mem_map]
  have hanyF : ∀ r : GameResult, r ∉ roundOutcomes g →
      (g.table.player_hands.any (fun h =>
        perHandOutcome (hand_score g.table.dealer_hand) (is_bust g.table.dealer_hand) h = r))
      = false := by
    intro r hr
    cases hc : g.table.player_hands.any (fun h =>
        perHandOutcome (hand_score g.table.dealer_hand) (is_bust g.table.dealer_hand) h = r) with
    | false => rfl
    | true => exact absurd ((hany r).mp hc) hr
  rcases List.exists_mem_of_ne_nil _ hne with ⟨h0, hh0⟩
  have hall_mem : ∀ x : GameResult, (∀ r ∈ roundOutcomes g, r = x) →
      x ∈ roundOutcomes g ∧ ∀ y : GameResult, y ≠ x → y ∉ roundOutcomes g := by
    intro x hall
    have hm : perHandOutcome (hand_score g.table.dealer_hand) (is_bust g.table.dealer_hand) h0
        ∈ roundOutcomes g := List.mem_map_of_mem _ hh0
    refine ⟨hall _ hm ▸ hm, ?_⟩
    intro y hy hymem
    exact hy (hall y hymem)
  refine ⟨?_, ?_, ?_, ?_, ?_⟩
  · intro hall
    obtain ⟨hx, hnot⟩ := hall_mem _ hall
    have hW := (hany _).mpr hx
    have hL := hanyF _ (hnot GameResult.dealerWin (by decide))
    simp [hW, hL]
  · intro hall
    obtain ⟨hx, hnot⟩ := hall_mem _ hall
    have hL := (hany _).mpr hx
    have hW := hanyF _ (hnot GameResult.playerWin (by decide))
    have hP := hanyF _ (hnot GameResult.push (by decide))
    simp [hW, hL, hP]
  · intro hall
    obtain ⟨hx, hnot⟩ := hall_mem _ hall
    have hP := (hany _).mpr hx
    have hW := hanyF _ (hnot GameResult.playerWin (by decide))
    have hL := hanyF _ (hnot GameResult.dealerWin (by decide))
    simp [hW, hL, hP]
  · intro hw hnl
    have hW := (hany _).mpr hw
    have hL := hanyF _ hnl
    simp [hW, hL]
  · intro hl hwp
    have hL := (hany _).mpr hl
    rcases hwp with hw | hp
    · have hW := (hany _).mpr hw
      simp [hW, hL]
    · have hP := (hany _).mpr hp
      cases hW : g.table.player_hands.any (fun h =>
          perHandOutcome (hand_score g.table.dealer_hand) (is_bust g.table.dealer_hand) h
            = GameResult.playerWin) <;>
        simp [hW, hL, hP]

/-- A settled round whose single hand ([10♠ 9♠] = 19) beats the standing
dealer ([10♥ 8♣] = 18). -/
def allWinGame : Game :=
  { state := .dealerTurn
    shoe := []
    table :=
      { player_hands :=
          [ { hand := [⟨Suit.spades, Value.ten⟩, ⟨Suit.spades, Value.nine⟩]
              bet := { amount := 10 }, is_complete := true } ]
        dealer_hand := [⟨Suit.hearts, Value.ten⟩, ⟨Suit.clubs, Value.eight⟩] }
    bank := { balance := 0 }
    result := .pending }

/-- Concrete instance of the amended C3 collapse at an all-win table. -/
theorem resolveRound_collapse_witness :
    (Game.resolveRound allWinGame).1.result = GameResult.playerWin :=
  (resolveRound_collapse allWinGame (by decide)).1 (by decide)

/-- Case analysis of `resolve_blackjack_or_continue` used by several
claims: it always succeeds on a non-empty table, never touches the table
or the shoe, and lands in `RoundOver` or in `PlayerTurn 0` (the latter
leaving bank and result untouched). -/
theorem resolveBOC_spec (g : Game) (p : PlayerHand) (rest : List PlayerHand)
    (hp : g.table.player_hands = p :: rest) :
    ∃ g' evs, Game.resolveBlackjackOrContinue g = some (g', evs) ∧
      g'.table = g.table ∧ g'.shoe = g.shoe ∧
      (g'.state = BlackjackState.roundOver ∨
        (g'.state = BlackjackState.playerTurn 0 ∧ g'.bank = g.bank ∧ g'.result = g.result)) := by
  rw [Game.resolveBlackjackOrContinue, hp]
  cases hpb : is_blackjack p.hand <;>
    cases hdb : is_blackjack g.table.dealer_hand <;>
      simp [hpb, hdb, Game.setResult, Game.transitionTo]

/-- The spec's natural-blackjack scenario shoe, in draw order:
player A♠ 10♥, dealer 9♣ 7♦. -/
def naturalScenarioShoe : List Card :=
  [⟨Suit.spades, Value.ace⟩, ⟨Suit.hearts, Value.ten⟩,
   ⟨Suit.clubs, Value.nine⟩, ⟨Suit.diamonds, Value.seven⟩]

/-- C4: naturals are evaluated right after the initial deal — player
natural alone deposits `bet + bet*3/2` and resolves PlayerWin in
RoundOver; double naturals refund exactly `bet` and resolve Push; a dealer
natural alone resolves DealerWin with no deposit; with no naturals the
round enters PlayerTurn 0 with bank untouched.  With bet 10 and bank 1000,
the spec's scenario ends at balance 1015. -/
theorem naturals_resolution (g : Game) (p : PlayerHand) (rest : List PlayerHand)
    (hp : g.table.player_hands = p :: rest) :
    (is_blackjack p.hand = true → is_blackjack g.table.dealer_hand = true →
      ∃ g' evs, Game.resolveBlackjackOrContinue g = some (g', evs) ∧
        g'.bank.balance = g.bank.balance + p.bet.amount ∧
        g'.result = GameResult.push ∧ g'.state = BlackjackState.roundOver) ∧
    (is_blackjack p.hand = true → is_blackjack g.table.dealer_hand = false →
      ∃ g' evs, Game.resolveBlackjackOrContinue g = some (g', evs) ∧
        g'.bank.balance = g.bank.balance + (p.bet.amount + p.bet.amount * 3 / 2) ∧
        g'.result = GameResult.playerWin ∧ g'.state = BlackjackState.roundOver) ∧
    (is_blackjack p.hand = false → is_blackjack g.table.dealer_hand = true →
      ∃ g' evs, Game.resolveBlackjackOrContinue g = some (g', evs) ∧
        g'.bank = g.bank ∧
        g'.result = GameResult.dealerWin ∧ g'.state = BlackjackState.roundOver) ∧
    (is_blackjack p.hand = false → is_blackjack g.table.dealer_hand = false →
      ∃ g' evs, Game.resolveBlackjackOrContinue g = some (g', evs) ∧
        g'.bank = g.bank ∧ g'.result = g.result ∧
        g'.state = BlackjackState.playerTurn 0) ∧
    (Game.startRound (Game.new naturalScenarioShoe)).map
        (fun q => (q.1.bank.balance, q.1.result, q.1.state))
      = some (1015, GameResult.playerWin, BlackjackState.roundOver) := by
  refine ⟨?_, ?_, ?_, ?_, by decide⟩ <;>
    · intro h1 h2
      rw [Game.resolveBlackjackOrContinue, hp]
      simp [h1, h2, Game.setResult, Game.transitionTo, Bank.deposit]

/-- A game mid-deal with the player holding a natural (A♠ 10♥) against a
dealer 16 (9♣ 7♦) and bank 990. -/
def playerNaturalGame : Game :=
  { state := .dealing
    shoe := []
    table :=
      { player_hands :=
          [ { hand := [⟨Suit.spades, Value.ace⟩, ⟨Suit.hearts, Value.ten⟩]
              bet := { amount := 10 }, is_complete := false } ]
        dealer_hand := [⟨Suit.clubs, Value.nine⟩, ⟨Suit.diamonds, Value.seven⟩] }
    bank := { balance := 990 }
    result := .pending }

/-- Concrete instance of C4's player-natural branch: the 3:2 payout on
`playerNaturalGame` yields balance 1015. -/
theorem naturals_resolution_witness :
    ∃ g' evs, Game.resolveBlackjackOrContinue playerNaturalGame = some (g', evs) ∧
      g'.bank.balance = playerNaturalGame.bank.balance + (10 + 10 * 3 / 2) ∧
      g'.result = GameResult.playerWin ∧ g'.state = BlackjackState.roundOver :=
  (naturals_resolution playerNaturalGame _ _ rfl).2.1 (by decide) (by decide)

/-- Four pairwise-distinct low cards in draw order. -/
def distinctShoe : List Card :=
  [⟨Suit.spades, Value.two⟩, ⟨Suit.hearts, Value.three⟩,
   ⟨Suit.clubs, Value.four⟩, ⟨Suit.diamonds, Value.five⟩]

/-- C5 counterexample: starting a round on the shoe 2♠ 3♥ 4♣ 5♦ gives the
player the 1st and 2nd draws (2♠ 3♥) and the dealer the 3rd and 4th
(4♣ 5♦) — not the alternating split (player 2♠ 4♣, dealer 3♥ 5♦) the
claim states. -/
theorem deal_is_not_alternating :
    (Game.startRound (Game.new distinctShoe)).map
        (fun q => (q.1.table.player_hands.map (fun h => h.hand), q.1.table.dealer_hand))
      = some ([[⟨Suit.spades, Value.two⟩, ⟨Suit.hearts, Value.three⟩]],
              [⟨Suit.clubs, Value.four⟩, ⟨Suit.diamonds, Value.five⟩]) ∧
    ¬ ((Game.startRound (Game.new distinctShoe)).map
        (fun q => (q.1.table.player_hands.map (fun h => h.hand), q.1.table.dealer_hand))
      = some ([[⟨Suit.spades, Value.two⟩, ⟨Suit.clubs, Value.four⟩]],
              [⟨Suit.hearts, Value.three⟩, ⟨Suit.diamonds, Value.five⟩])) := by decide

/-- C5 amended: at round start, once the bet withdrawal succeeds, the
player hand receives the 1st and 2nd cards drawn from the shoe and the
dealer hand the 3rd and 4th (player, player, dealer, dealer — not
alternating). -/
theorem dealInitialCards_spec (g : Game) (p : PlayerHand) (ps : List PlayerHand)
    (c1 c2 c3 c4 : Card) (rest : List Card)
    (hp : g.table.player_hands = p :: ps)
    (hshoe : g.shoe = c1 :: c2 :: c3 :: c4 :: rest) :
    ∃ g' evs, Game.dealInitialCards g = some (g', evs) ∧
      g'.table.player_hands = { p with hand := p.hand ++ [c1, c2] } :: ps ∧
      g'.table.dealer_hand = g.table.dealer_hand ++ [c3, c4] ∧
      g'.shoe = rest ∧
      (g'.state = BlackjackState.roundOver ∨
        (g'.state = BlackjackState.playerTurn 0 ∧ g'.bank = g.bank ∧ g'.result = g.result)) := by
  rw [Game.dealInitialCards, hp, hshoe]
  obtain ⟨g', evs, heq, htab, hsh, hst⟩ :=
    resolveBOC_spec
      { g with
          shoe := rest
          table :=
            { player_hands := { p with hand := p.hand ++ [c1, c2] } :: ps
              dealer_hand := g.table.dealer_hand ++ [c3, c4] } }
      { p with hand := p.hand ++ [c1, c2] } ps rfl
  refine ⟨g', evs, heq, ?_, ?_, ?_, hst⟩ <;> simp [htab, hsh]

theorem advanceAuto_break (g : Game)
    (hst : g.state = BlackjackState.playerTurn i ∨ g.state = BlackjackState.roundOver) :
    Game.advanceAuto g = some (g, []) := by
  rcases hst with h | h <;> simp [Game.advanceAuto, Game.advanceAutoFuel, h]

theorem advanceAuto_dealing (g g' : Game) (evs : List BEvent)
    (hstate : g.state = BlackjackState.dealing)
    (hdeal : Game.dealInitialCards g = some (g', evs))
    (hst' : g'.state = BlackjackState.roundOver ∨ g'.state = BlackjackState.playerTurn 0) :
    Game.advanceAuto g = some (g', evs) := by
  simp only [Game.advanceAuto, Game.advanceAutoFuel, hstate, hdeal, Option.bind_some]
  rcases hst' with h | h <;> simp [h]

/-- C5 amended: at round start, once the bet withdrawal succeeds, the
player hand receives the 1st and 2nd cards drawn from the shoe and the
dealer hand the 3rd and 4th (player, player, dealer, dealer — not
alternating). -/
theorem startRound_deal_order (g : Game) (c1 c2 c3 c4 : Card) (rest : List Card)
    (hshoe : g.shoe = c1 :: c2 :: c3 :: c4 :: rest) (hbank : 10 ≤ g.bank.balance) :
    ∃ g' evs, Game.startRound g = some (g', evs) ∧
      g'.table.player_hands.map (fun h => h.hand) = [[c1, c2]] ∧
      g'.table.dealer_hand = [c3, c4] ∧ g'.shoe = rest := by
  have hw : g.bank.withdraw 10 = (true, { balance := g.bank.balance - 10 }) := by
    simp [Bank.withdraw, hbank]
  obtain ⟨gd, evs, hdeal, hhands, hdealer, hsh, hst⟩ :=
    dealInitialCards_spec
      { g with
          state := .dealing
          table := { player_hands := [PlayerHand.new 10], dealer_hand := [] }
          bank := { balance := g.bank.balance - 10 }
          result := .pending }
      (PlayerHand.new 10) [] c1 c2 c3 c4 rest rfl hshoe
  have hadv : Game.advanceAuto
      { g with
          state := .dealing
          table := { player_hands := [PlayerHand.new 10], dealer_hand := [] }
          bank := { balance := g.bank.balance - 10 }
          result := .pending } = some (gd, evs) := by
    refine advanceAuto_dealing _ _ _ rfl hdeal ?_
    rcases hst with h | h
    · exact Or.inl h
    · exact Or.inr h.1
  refine ⟨gd,
    (if g.state = BlackjackState.dealing then ([] : List BEvent)
     else [.stateChanged g.state .dealing]) ++ evs, ?_, ?_, ?_, hsh⟩
  · simp only [PlayerHand.new] at hadv
    simp only [Game.startRound, Game.transitionTo, PlayerHand.new, hw]
    simp [hadv]
  · simp [hhands, PlayerHand.new]
  · simpa using hdealer

/-- Concrete instance of the amended C5 deal order on the shoe
2♠ 3♥ 4♣ 5♦. -/
theorem startRound_deal_order_witness :
    ∃ g' evs, Game.startRound (Game.new distinctShoe) = some (g', evs) ∧
      g'.table.player_hands.map (fun h => h.hand)
        = [[⟨Suit.spades, Value.two⟩, ⟨Suit.hearts, Value.three⟩]] ∧
      g'.table.dealer_hand = [⟨Suit.clubs, Value.four⟩, ⟨Suit.diamonds, Value.five⟩] ∧
      g'.shoe = [] :=
  startRound_deal_order (Game.new distinctShoe)
    ⟨Suit.spades, Value.two⟩ ⟨Suit.hearts, Value.three⟩
    ⟨Suit.clubs, Value.four⟩ ⟨Suit.diamonds, Value.five⟩ [] rfl (by decide)

theorem dealerDraw_spec (shoe : List Card) : ∀ dealer d' s',
    Game.dealerDraw dealer shoe = some (d', s') →
    dealer_should_hit d' = false ∧
    ∃ n, d' = dealer ++ shoe.take n ∧ s' = shoe.drop n := by
  induction shoe with
  | nil =>
    intro dealer d' s' h
    rw [Game.dealerDraw] at h
    cases hh : dealer_should_hit dealer with
    | true => simp [hh] at h
    | false =>
      simp [hh] at h
      exact ⟨h.1 ▸ hh, 0, by simp [h.1, h.2]⟩
  | cons c rest ih =>
    intro dealer d' s' h
    rw [Game.dealerDraw] at h
    cases hh : dealer_should_hit dealer with
    | true =>
      simp only [hh, if_true] at h
      obtain ⟨hstop, n, hd, hs⟩ := ih (dealer ++ [c]) d' s' h
      exact ⟨hstop, n + 1, by simp [hd], by simp [hs]⟩
    | false =>
      simp [hh] at h
      exact ⟨h.1 ▸ hh, 0, by simp [h.1, h.2]⟩

theorem resolveRound_frame (g : Game) :
    (Game.resolveRound g).1.state = BlackjackState.roundOver ∧
    (Game.resolveRound g).1.table = g.table ∧
    (Game.resolveRound g).1.shoe = g.shoe := by
  simp [Game.resolveRound, Game.setResult, Game.transitionTo]

/-- C6: `dealer_should_hit` holds exactly below a score of 17 (so an
adjusted soft 17 such as A 6 stands), and `play_dealer` — the DealerTurn
body — draws shoe cards onto the dealer hand precisely while the policy
says hit, then settles into RoundOver within the same call. -/
theorem dealer_turn_policy (g g' : Game) (evs : List BEvent)
    (hplay : Game.playDealer g = some (g', evs)) :
    (∀ hand : List Card, dealer_should_hit hand = decide (hand_score hand < 17)) ∧
    dealer_should_hit [⟨Suit.spades, Value.ace⟩, ⟨Suit.hearts, Value.six⟩] = false ∧
    g'.state = BlackjackState.roundOver ∧
    dealer_should_hit g'.table.dealer_hand = false ∧
    ∃ n, g'.table.dealer_hand = g.table.dealer_hand ++ g.shoe.take n ∧
      g'.shoe = g.shoe.drop n := by
  refine ⟨fun _ => rfl, by decide, ?_⟩
  rw [Game.playDealer] at hplay
  obtain ⟨⟨d', s'⟩, hdraw, hres⟩ := Option.map_eq_some'.mp hplay
  obtain ⟨hstop, n, hd, hs⟩ := dealerDraw_spec g.shoe g.table.dealer_hand d' s' hdraw
  set g2 : Game := { g with table := { g.table with dealer_hand := d' }, shoe := s' } with hg2
  obtain ⟨hstate, htable, hshoe⟩ := resolveRound_frame g2
  have hg' : g' = (Game.resolveRound g2).1 := by
    rw [hres]
  refine ⟨hg' ▸ hstate, ?_, n, ?_, ?_⟩
  · rw [hg', htable]
    exact hstop
  · rw [hg', htable]
    exact hd
  · rw [hg', hshoe]
    exact hs

/-- A DealerTurn position: dealer holds 10♥ 6♣ (16), draws 10♣ and busts. -/
def dealerSixteenGame : Game :=
  { state := .dealerTurn
    shoe := [⟨Suit.clubs, Value.ten⟩, ⟨Suit.diamonds, Value.two⟩]
    table :=
      { player_hands :=
          [ { hand := [⟨Suit.spades, Value.ten⟩, ⟨Suit.spades, Value.nine⟩]
              bet := { amount := 10 }, is_complete := true } ]
        dealer_hand := [⟨Suit.hearts, Value.ten⟩, ⟨Suit.clubs, Value.six⟩] }
    bank := { balance := 990 }
    result := .pending }

/-- The concrete outcome of `play_dealer` on `dealerSixteenGame`. -/
def dealerSixteenResult : Game × List BEvent :=
  (Game.playDealer dealerSixteenGame).getD (dealerSixteenGame, [])

/-- Concrete instance of C6 on `dealerSixteenGame`. -/
theorem dealer_turn_policy_witness :
    (∀ hand : List Card, dealer_should_hit hand = decide (hand_score hand < 17)) ∧
    dealer_should_hit [⟨Suit.spades, Value.ace⟩, ⟨Suit.hearts, Value.six⟩] = false ∧
    dealerSixteenResult.1.state = BlackjackState.roundOver ∧
    dealer_should_hit dealerSixteenResult.1.table.dealer_hand = false ∧
    ∃ n, dealerSixteenResult.1.table.dealer_hand
        = dealerSixteenGame.table.dealer_hand ++ dealerSixteenGame.shoe.take n ∧
      dealerSixteenResult.1.shoe = dealerSixteenGame.shoe.drop n :=
  dealer_turn_policy dealerSixteenGame dealerSixteenResult.1 dealerSixteenResult.2
    (by decide)

/-- C7: player input during the engine-driven phases (Dealing, DealerTurn,
RoundOver) and any disallowed Double or Split during PlayerTurn leave the
game — state, hands, bets, bank — unchanged, surfacing nothing but an
`ActionIgnored` event. -/
theorem invalid_actions_noop :
    (∀ (g : Game) (a : PlayerAction),
      (g.state = BlackjackState.dealing ∨ g.state = BlackjackState.dealerTurn ∨
        g.state = BlackjackState.roundOver) →
      Game.apply g a = some (g, [.actionIgnored a g.state])) ∧
    (∀ (g : Game) (i : Nat) (h : PlayerHand), g.state = BlackjackState.playerTurn i →
      g.table.player_hands.get? i = some h →
      ((can_double h.hand = false ∨ g.bank.balance < h.bet.amount) →
        Game.apply g .double = some (g, [.actionIgnored .double g.state])) ∧
      ((can_split h.hand (Game.splitContext g) = false ∨ g.bank.balance < h.bet.amount) →
        Game.apply g .split = some (g, [.actionIgnored .split g.state]))) := by
  constructor
  · intro g a hst
    rcases hst with h | h | h <;> simp [Game.apply, h]
  · intro g i h hst hget
    rw [List.get?_eq_getElem?] at hget
    constructor
    · intro hcond
      rcases hcond with hcd | hlt
      · simp [Game.apply, hst, Game.handlePlayerTurn, hget, hcd]
      · cases hcd : can_double h.hand with
        | false => simp [Game.apply, hst, Game.handlePlayerTurn, hget, hcd]
        | true =>
          have hw : ¬ (h.bet.amount ≤ g.bank.balance) := by omega
          simp [Game.apply, hst, Game.handlePlayerTurn, hget, hcd, Bank.withdraw, hw]
    · intro hcond
      rcases hcond with hcs | hlt
      · simp [Game.apply, hst, Game.handlePlayerTurn, hget, hcs]
      · cases hcs : can_split h.hand (Game.splitContext g) with
        | false => simp [Game.apply, hst, Game.handlePlayerTurn, hget, hcs]
        | true => simp [Game.apply, hst, Game.handlePlayerTurn, hget, hcs, hlt]

/-- The spec's insufficient-funds scenario: bank 5, bet 10, a fresh
two-card hand awaiting its turn. -/
def bankFiveGame : Game :=
  { state := .playerTurn 0
    shoe := [⟨Suit.clubs, Value.four⟩]
    table :=
      { player_hands :=
          [ { hand := [⟨Suit.spades, Value.five⟩, ⟨Suit.hearts, Value.six⟩]
              bet := { amount := 10 }, is_complete := false } ]
        dealer_hand := [⟨Suit.clubs, Value.ten⟩, ⟨Suit.diamonds, Value.seven⟩] }
    bank := { balance := 5 }
    result := .pending }

/-- Concrete instance of C7: with bank 5 and bet 10 a forced Double is
ignored, leaving the game untouched. -/
theorem invalid_actions_noop_witness :
    Game.apply bankFiveGame .double
      = some (bankFiveGame, [.actionIgnored .double bankFiveGame.state]) :=
  ((invalid_actions_noop.2 bankFiveGame 0
      { hand := [⟨Suit.spades, Value.five⟩, ⟨Suit.hearts, Value.six⟩]
        bet := { amount := 10 }, is_complete := false }
      rfl rfl).1 (Or.inr (by decide)))

theorem can_split_alreadySplit (hand : List Card) :
    can_split hand .alreadySplit = false := by
  match hand with
  | [] => rfl
  | [_] => rfl
  | [_, _] => simp [can_split]
  | _ :: _ :: _ :: _ => rfl

theorem can_split_shape (hand : List Card) (ctx : SplitContext)
    (h : can_split hand ctx = true) : ∃ c0 c1, hand = [c0, c1] := by
  match hand with
  | [] => cases h
  | [_] => cases h
  | [a, b] => exact ⟨a, b, rfl⟩
  | _ :: _ :: _ :: _ => cases h

/-- The shoe for the split scenario, in draw order: player 8♠ 8♥, dealer
10♣ 7♦, then the two split draws 2♠ 3♥. -/
def splitShoe : List Card :=
  [⟨Suit.spades, Value.eight⟩, ⟨Suit.hearts, Value.eight⟩,
   ⟨Suit.clubs, Value.ten⟩, ⟨Suit.diamonds, Value.seven⟩,
   ⟨Suit.spades, Value.two⟩, ⟨Suit.hearts, Value.three⟩]

/-- C8: a successful Split leaves exactly two player hands of two cards
each (one original card plus one fresh draw apiece), both carrying the
original bet, withdraws that bet once more from the bank (2×bet for the
round in total, as the concrete trace on `splitShoe` shows: balance
1000 − 2·10), keeps the state at the original PlayerTurn index, and any
Split attempted on a table that already has two hands is refused
unchanged. -/
theorem split_invariant :
    (∀ (g : Game) (i : Nat) (h : PlayerHand) (n1 n2 : Card) (rest : List Card),
      g.state = BlackjackState.playerTurn i →
      g.table.player_hands.get? i = some h →
      can_split h.hand (Game.splitContext g) = true →
      h.bet.amount ≤ g.bank.balance →
      g.shoe = n1 :: n2 :: rest →
      ∃ g', Game.apply g .split = some (g', [.actionApplied .split]) ∧
        (∃ c0 c1, h.hand = [c0, c1] ∧
          g'.table.player_hands.map (fun p => p.hand) = [[c0, n1], [c1, n2]]) ∧
        g'.table.player_hands.length = 2 ∧
        (∀ p ∈ g'.table.player_hands, p.hand.length = 2 ∧ p.bet.amount = h.bet.amount) ∧
        g'.bank.balance + h.bet.amount = g.bank.balance ∧
        g'.state = BlackjackState.playerTurn i) ∧
    (∀ (g : Game) (i : Nat) (h : PlayerHand),
      g.state = BlackjackState.playerTurn i →
      g.table.player_hands.get? i = some h →
      2 ≤ g.table.player_hands.length →
      Game.apply g .split = some (g, [.actionIgnored .split g.state])) ∧
    ((Game.startRound (Game.new splitShoe)).bind (fun q => Game.apply q.1 .split)).map
        (fun q => q.1.bank.balance) = some (1000 - 2 * 10) := by
  refine ⟨?_, ?_, by decide⟩
  · intro g i h n1 n2 rest hst hget hcs hbal hshoe
    rw [List.get?_eq_getElem?] at hget
    obtain ⟨hi, hgeti⟩ := List.getElem?_eq_some.mp hget
    have hctx : Game.splitContext g = .noPreviousSplit := by
      cases hc : Game.splitContext g with
      | noPreviousSplit => rfl
      | alreadySplit =>
        rw [hc, can_split_alreadySplit] at hcs
        cases hcs
    have hlen : g.table.player_hands.length ≤ 1 := by
      by_contra hgt
      simp [Game.splitContext, Nat.lt_of_not_le hgt] at hctx
    have hi0 : i = 0 := by omega
    subst hi0
    have hlen1 : g.table.player_hands.length = 1 := by omega
    obtain ⟨a, hpha⟩ := List.length_eq_one.mp hlen1
    have hph : g.table.player_hands = [h] := by
      rw [hpha] at hget ⊢
      simpa using hget
    obtain ⟨c0, c1, ha⟩ := can_split_shape h.hand (Game.splitContext g) hcs
    have hnlt : ¬ (g.bank.balance < h.bet.amount) := not_lt.mpr hbal
    refine ⟨{ g with
        state := .playerTurn 0
        shoe := rest
        bank := { balance := g.bank.balance - h.bet.amount }
        table := { g.table with player_hands :=
          [ { h with hand := [c0, n1] },
            { hand := [c1, n2], bet := { amount := h.bet.amount }, is_complete := false } ] } },
      ?_, ⟨c0, c1, ha, ?_⟩, ?_, ?_, ?_, ?_⟩
    · simp only [Game.apply, hst, Game.handlePlayerTurn, hph, hcs, hnlt, hshoe, ha,
        Game.transitionTo, Bank.withdraw, hbal, Game.advanceAuto, Game.advanceAutoFuel]
      have hcs2 : can_split [c0, c1] (Game.splitContext g) = true := ha ▸ hcs
      simp [hcs2, hnlt, ha, hbal]
    · simp
    · simp
    · intro p hp
      simp at hp
      rcases hp with hp | hp <;> simp [hp, ha]
    · simp
      omega
    · rfl
  · intro g i h hst hget hlen2
    rw [List.get?_eq_getElem?] at hget
    have hctx : Game.splitContext g = .alreadySplit := by
      simp [Game.splitContext]
      omega
    have hcs : can_split h.hand (Game.splitContext g) = false := by
      rw [hctx, can_split_alreadySplit]
    simp [Game.apply, hst, Game.handlePlayerTurn, hget, hcs]

/-- A PlayerTurn position holding a splittable pair of eights. -/
def eightsGame : Game :=
  { state := .playerTurn 0
    shoe := [⟨Suit.spades, Value.two⟩, ⟨Suit.hearts, Value.three⟩]
    table :=
      { player_hands :=
          [ { hand := [⟨Suit.spades, Value.eight⟩, ⟨Suit.hearts, Value.eight⟩]
              bet := { amount := 10 }, is_complete := false } ]
        dealer_hand := [⟨Suit.clubs, Value.ten⟩, ⟨Suit.diamonds, Value.seven⟩] }
    bank := { balance := 990 }
    result := .pending }

/-- Concrete instance of C8's split effect on `eightsGame`. -/
theorem split_invariant_witness :
    ∃ g', Game.apply eightsGame .split = some (g', [.actionApplied .split]) ∧
      (∃ c0 c1,
        ([⟨Suit.spades, Value.eight⟩, ⟨Suit.hearts, Value.eight⟩] : List Card) = [c0, c1] ∧
        g'.table.player_hands.map (fun p => p.hand)
          = [[c0, ⟨Suit.spades, Value.two⟩], [c1, ⟨Suit.hearts, Value.three⟩]]) ∧
      g'.table.player_hands.length = 2 ∧
      (∀ p ∈ g'.table.player_hands, p.hand.length = 2 ∧ p.bet.amount = 10) ∧
      g'.bank.balance + 10 = eightsGame.bank.balance ∧
      g'.state = BlackjackState.playerTurn 0 :=
  split_invariant.1 eightsGame 0
    { hand := [⟨Suit.spades, Value.eight⟩, ⟨Suit.hearts, Value.eight⟩]
      bet := { amount := 10 }, is_complete := false }
    ⟨Suit.spades, Value.two⟩ ⟨Suit.hearts, Value.three⟩ []
    rfl rfl (by decide) (by decide) rfl

theorem enumFrom_map_faceUp (l : List Card) : ∀ n, 1 ≤ n →
    (l.enumFrom n).map
        (fun p => if p.1 = 0 then VisibleCard.faceDown else VisibleCard.faceUp p.2)
      = l.map .faceUp := by
  induction l with
  | nil => intro n _; rfl
  | cons c rest ih =>
    intro n hn
    have hne : ¬ (n = 0) := by omega
    simp only [List.enumFrom_cons, List.map_cons, hne, if_false]
    rw [ih (n + 1) (by omega)]

theorem enum_map_holeCard (l : List Card) :
    (l.enum.map fun p => if p.1 = 0 then VisibleCard.faceDown else VisibleCard.faceUp p.2)
      = (match l with
         | [] => []
         | _ :: rest => VisibleCard.faceDown :: rest.map .faceUp) := by
  cases l with
  | nil => rfl
  | cons c rest =>
    simp only [List.enum_cons, List.map_cons]
    rw [enumFrom_map_faceUp rest 1 (le_refl 1)]
    simp

/-- C9: while the round is in Dealing or PlayerTurn the view reports the
dealer's first card face-down, the remaining dealer cards face-up, and a
dealer score computed only from those remaining cards; in DealerTurn and
RoundOver every dealer card is face-up and the score is `hand_score` of
the whole dealer hand. -/
theorem view_hides_hole_card :
    (∀ (g : Game) (v : BlackjackView), Game.view g = some v →
      (g.state = BlackjackState.dealing ∨ (∃ i, g.state = BlackjackState.playerTurn i)) →
      v.dealer_cards
        = (match g.table.dealer_hand with
           | [] => []
           | _ :: rest => VisibleCard.faceDown :: rest.map .faceUp) ∧
      v.dealer_visible_score
        = (if g.table.dealer_hand.drop 1 = [] then none
           else some (hand_score (g.table.dealer_hand.drop 1))) ∧
      v.dealer_has_hidden_card = true) ∧
    (∀ (g : Game) (v : BlackjackView), Game.view g = some v →
      (g.state = BlackjackState.dealerTurn ∨ g.state = BlackjackState.roundOver) →
      v.dealer_cards = g.table.dealer_hand.map .faceUp ∧
      v.dealer_visible_score = some (hand_score g.table.dealer_hand) ∧
      v.dealer_has_hidden_card = false) := by
  constructor
  · intro g v hview hst
    obtain ⟨controls, hav, hv⟩ := Option.map_eq_some'.mp hview
    subst hv
    have hproj : Game.dealerProjection g
        = ((match g.table.dealer_hand with
            | [] => []
            | _ :: rest => VisibleCard.faceDown :: rest.map .faceUp),
           (if g.table.dealer_hand.drop 1 = [] then none
            else some (hand_score (g.table.dealer_hand.drop 1))), true) := by
      rcases hst with h | ⟨i, h⟩ <;>
        · rw [Game.dealerProjection, h]
          rw [← enum_map_holeCard]
          simp [List.isEmpty_iff]
    simp [hproj]
  · intro g v hview hst
    obtain ⟨controls, hav, hv⟩ := Option.map_eq_some'.mp hview
    subst hv
    have hproj : Game.dealerProjection g
        = (g.table.dealer_hand.map .faceUp,
           some (hand_score g.table.dealer_hand), false) := by
      rcases hst with h | h <;> rw [Game.dealerProjection, h]
    simp [hproj]

/-- A default view used only to name concrete view values. -/
def emptyView : BlackjackView :=
  { available_actions := []
    phase := .dealing
    player_hands := []
    active_hand_index := 0
    dealer_cards := []
    dealer_visible_score := none
    dealer_has_hidden_card := false
    bank_balance := 0
    total_bet := 0
    result := .pending
    can_hit := false
    can_stay := false
    can_start_new_round := false }

/-- The concrete view of `eightsGame` (a PlayerTurn position). -/
def eightsGameView : BlackjackView :=
  (Game.view eightsGame).getD emptyView

/-- The concrete view of `allWinGame` (a DealerTurn position). -/
def allWinGameView : BlackjackView :=
  (Game.view allWinGame).getD emptyView

/-- Concrete instance of C9: on `eightsGame` (PlayerTurn) the hole card is
hidden and the dealer score shows only 7♦; on `allWinGame` (DealerTurn)
everything is face-up with the full score 18. -/
theorem view_hides_hole_card_witness :
    eightsGameView.dealer_cards
      = [VisibleCard.faceDown, VisibleCard.faceUp ⟨Suit.diamonds, Value.seven⟩] ∧
    eightsGameView.dealer_visible_score = some 7 ∧
    eightsGameView.dealer_has_hidden_card = true ∧
    allWinGameView.dealer_cards
      = [VisibleCard.faceUp ⟨Suit.hearts, Value.ten⟩,
         VisibleCard.faceUp ⟨Suit.clubs, Value.eight⟩] ∧
    allWinGameView.dealer_visible_score = some 18 ∧
    allWinGameView.dealer_has_hidden_card = false := by
  have h1 := view_hides_hole_card.1 eightsGame eightsGameView (by decide) (Or.inr ⟨0, rfl⟩)
  have h2 := view_hides_hole_card.2 allWinGame allWinGameView (by decide) (Or.inl rfl)
  refine ⟨?_, ?_, h1.2.2, ?_, ?_, h2.2.2⟩
  · simpa using h1.1
  · simpa using h1.2.1
  · simpa using h2.1
  · simpa using h2.2.1

/-- The PlayerTurn/Dealing hand invariant: during a player turn the
current index denotes an existing, still-incomplete hand, and while
dealing the first hand exists and is incomplete. -/
def Inv (g : Game) : Prop :=
  (∀ i, g.state = BlackjackState.playerTurn i →
    ∃ h, g.table.player_hands[i]? = some h ∧ h.is_complete = false) ∧
  (g.state = BlackjackState.dealing →
    ∃ h, g.table.player_hands[0]? = some h ∧ h.is_complete = false)

/-- States of the engine reachable from `Blackjack::new` through the
public operations (`start_round`, `apply`, `request_new_round`); the
random shoes are universally quantified. -/
inductive Reachable : Game → Prop
  | base (shoe : List Card) : Reachable (Game.new shoe)
  | start (g g' : Game) (evs : List BEvent) :
      Reachable g → Game.startRound g = some (g', evs) → Reachable g'
  | step (g g' : Game) (a : PlayerAction) (evs : List BEvent) :
      Reachable g → Game.apply g a = some (g', evs) → Reachable g'
  | newRound (g g' : Game) (fresh : List Card) (evs : List BEvent) :
      Reachable g → Game.requestNewRound g fresh = some (g', evs) → Reachable g'

theorem firstIncompleteFrom_spec :
    ∀ (hands : List PlayerHand) (s j : Nat),
      Game.firstIncompleteFrom hands s = some j →
      ∃ h, hands[j]? = some h ∧ h.is_complete = false := by
  intro hands
  induction hands with
  | nil => intro s j h; cases h
  | cons p rest ih =>
    intro s j h
    cases s with
    | zero =>
      rw [Game.firstIncompleteFrom] at h
      cases hc : p.is_complete with
      | true =>
        rw [hc] at h
        simp only [if_true] at h
        obtain ⟨j', hj', rfl⟩ := Option.map_eq_some'.mp h
        obtain ⟨q, hq, hqc⟩ := ih 0 j' hj'
        exact ⟨q, by simpa using hq, hqc⟩
      | false =>
        rw [hc] at h
        simp only [Bool.false_eq_true, if_false] at h
        obtain rfl : (0 : Nat) = j := by simpa using h
        exact ⟨p, by simp, hc⟩
    | succ s' =>
      rw [Game.firstIncompleteFrom] at h
      obtain ⟨j', hj', rfl⟩ := Option.map_eq_some'.mp h
      obtain ⟨q, hq, hqc⟩ := ih s' j' hj'
      exact ⟨q, by simpa using hq, hqc⟩

theorem advancePTD_spec (g : Game) (idx : Nat) :
    (Game.advancePlayerTurnOrDealer g idx).1.table = g.table ∧
    (Game.advancePlayerTurnOrDealer g idx).1.shoe = g.shoe ∧
    (Game.advancePlayerTurnOrDealer g idx).1.bank = g.bank ∧
    (Game.advancePlayerTurnOrDealer g idx).1.result = g.result ∧
    ((Game.advancePlayerTurnOrDealer g idx).1.state = BlackjackState.dealerTurn ∨
      (∃ j, (Game.advancePlayerTurnOrDealer g idx).1.state = BlackjackState.playerTurn j ∧
        ∃ h, g.table.player_hands[j]? = some h ∧ h.is_complete = false)) := by
  rw [Game.advancePlayerTurnOrDealer]
  cases hf : Game.firstIncompleteFrom g.table.player_hands (idx + 1) with
  | none => simp [Game.transitionTo]
  | some j =>
    obtain ⟨h, hh, hc⟩ := firstIncompleteFrom_spec g.table.player_hands (idx + 1) j hf
    exact ⟨rfl, rfl, rfl, rfl, Or.inr ⟨j, rfl, h, hh, hc⟩⟩

theorem Inv_of_not_active (g : Game)
    (h1 : ∀ i, g.state ≠ BlackjackState.playerTurn i)
    (h2 : g.state ≠ BlackjackState.dealing) : Inv g := by
  constructor
  · intro i hi
    exact absurd hi (h1 i)
  · intro hd
    exact absurd hd h2

theorem playDealer_Inv (g g' : Game) (evs : List BEvent)
    (h : Game.playDealer g = some (g', evs)) : Inv g' := by
  rw [Game.playDealer] at h
  obtain ⟨⟨d', s'⟩, _, hres⟩ := Option.map_eq_some'.mp h
  have hst := (resolveRound_frame
    { g with table := { g.table with dealer_hand := d' }, shoe := s' }).1
  have hg' : g' = (Game.resolveRound
      { g with table := { g.table with dealer_hand := d' }, shoe := s' }).1 := by
    rw [hres]
  rw [hg']
  exact Inv_of_not_active _ (fun i => by simp [hst]) (by simp [hst])

theorem resolveBOC_Inv (g g' : Game) (evs : List BEvent) (h0 : PlayerHand)
    (hh0 : g.table.player_hands[0]? = some h0) (hc0 : h0.is_complete = false)
    (h : Game.resolveBlackjackOrContinue g = some (g', evs)) : Inv g' := by
  cases hph : g.table.player_hands with
  | nil => rw [hph] at hh0; cases hh0
  | cons p ps =>
    obtain ⟨g2, evs2, heq, htab, _, hst⟩ := resolveBOC_spec g p ps hph
    rw [heq] at h
    obtain ⟨rfl, rfl⟩ : g2 = g' ∧ evs2 = evs := by
      cases h; exact ⟨rfl, rfl⟩
    rcases hst with hro | ⟨hpt, _, _⟩
    · exact Inv_of_not_active _ (fun i => by simp [hro]) (by simp [hro])
    · constructor
      · intro i hi
        rw [hpt] at hi
        cases hi
        exact ⟨h0, by rw [htab]; exact hh0, hc0⟩
      · intro hd
        rw [hpt] at hd
        cases hd

theorem dealInitialCards_Inv (g g' : Game) (evs : List BEvent)
    (h0 : ∃ h, g.table.player_hands[0]? = some h ∧ h.is_complete = false)
    (hd : Game.dealInitialCards g = some (g', evs)) : Inv g' := by
  obtain ⟨h, hh, hc⟩ := h0
  rw [Game.dealInitialCards] at hd
  rcases hph : g.table.player_hands with _ | ⟨p, ps⟩
  · rw [hph] at hd
    simp at hd
  · rcases hsh : g.shoe with _ | ⟨c1, _ | ⟨c2, _ | ⟨c3, _ | ⟨c4, rest⟩⟩⟩⟩ <;>
      rw [hph, hsh] at hd <;> try simp at hd
    have hp : p = h := by
      rw [hph] at hh
      simpa using hh
    subst hp
    exact resolveBOC_Inv _ g' evs { p with hand := p.hand ++ [c1, c2] }
      (by simp) (by simpa using hc) hd

theorem advanceAutoFuel_Inv :
    ∀ (n : Nat) (g g' : Game) (evs : List BEvent), Inv g →
      Game.advanceAutoFuel n g = some (g', evs) → Inv g' := by
  intro n
  induction n with
  | zero => intro g g' evs _ h; cases h
  | succ n ih =>
    intro g g' evs hInv h
    rw [Game.advanceAutoFuel] at h
    cases hst : g.state with
    | dealing =>
      rw [hst] at h
      obtain ⟨⟨g1, e1⟩, hd, hrest⟩ := Option.bind_eq_some.mp h
      obtain ⟨⟨g2, e2⟩, hadv, heq⟩ := Option.map_eq_some'.mp hrest
      have hInv1 : Inv g1 := dealInitialCards_Inv g g1 e1 (hInv.2 hst) hd
      have hInv2 := ih g1 g2 e2 hInv1 hadv
      cases heq
      exact hInv2
    | dealerTurn =>
      rw [hst] at h
      obtain ⟨⟨g1, e1⟩, hd, hrest⟩ := Option.bind_eq_some.mp h
      obtain ⟨⟨g2, e2⟩, hadv, heq⟩ := Option.map_eq_some'.mp hrest
      have hInv1 : Inv g1 := playDealer_Inv g g1 e1 hd
      have hInv2 := ih g1 g2 e2 hInv1 hadv
      cases heq
      exact hInv2
    | playerTurn i =>
      rw [hst] at h
      cases h
      exact hInv
    | roundOver =>
      rw [hst] at h
      cases h
      exact hInv

theorem startRound_Inv (g g' : Game) (evs : List BEvent)
    (h : Game.startRound g = some (g', evs)) : Inv g' := by
  simp only [Game.startRound, Game.transitionTo, PlayerHand.new] at h
  rcases hw : Bank.withdraw g.bank 10 with ⟨b, bank'⟩
  cases b with
  | false =>
    rw [hw] at h
    cases h
    exact ⟨fun i hi => BlackjackState.noConfusion hi, fun _ => ⟨_, rfl, rfl⟩⟩
  | true =>
    rw [hw] at h
    obtain ⟨⟨g2, e2⟩, hadv, heq⟩ := Option.map_eq_some'.mp h
    have hInv0 : Inv
        { g with
            state := BlackjackState.dealing
            table :=
              { player_hands := [{ hand := [], bet := { amount := 10 }, is_complete := false }]
                dealer_hand := [] }
            bank := bank'
            result := .pending } :=
      ⟨fun i hi => BlackjackState.noConfusion hi, fun _ => ⟨_, rfl, rfl⟩⟩
    have hInv2 := advanceAutoFuel_Inv 3 _ g2 e2 hInv0 hadv
    cases heq
    exact hInv2

theorem Inv_after_advance (g2 : Game) (idx : Nat) :
    Inv (Game.advancePlayerTurnOrDealer g2 idx).1 := by
  obtain ⟨htab, _, _, _, hst⟩ := advancePTD_spec g2 idx
  constructor
  · intro i' hi'
    rcases hst with hd | ⟨j, hj, q, hq, hqc⟩
    · rw [hd] at hi'
      exact BlackjackState.noConfusion hi'
    · rw [hj] at hi'
      injection hi' with hij
      subst hij
      exact ⟨q, by rw [htab]; exact hq, hqc⟩
  · intro hd
    rcases hst with hj | ⟨j, hj, _⟩ <;>
      · rw [hj] at hd
        exact BlackjackState.noConfusion hd

theorem handlePlayerTurn_Inv (g : Game) (i : Nat) (a : PlayerAction)
    (r : Bool × Game × List BEvent)
    (hInv : Inv g) (hst : g.state = BlackjackState.playerTurn i)
    (hh : Game.handlePlayerTurn g i a = some r) :
    (r.1 = false → r.2.1 = g) ∧ (r.1 = true → Inv r.2.1) := by
  obtain ⟨h0, hh0, hc0⟩ := hInv.1 i hst
  have hilt : i < g.table.player_hands.length := (List.getElem?_eq_some.mp hh0).1
  simp only [Game.handlePlayerTurn, List.get?_eq_getElem?, hh0] at hh
  cases a with
  | hit =>
    dsimp only at hh
    rcases hsh : g.shoe with _ | ⟨c, rest⟩
    · rw [hsh] at hh
      cases hh
    · rw [hsh] at hh
      dsimp only at hh
      cases hbust : is_bust (h0.hand ++ [c]) with
      | true =>
        rw [hbust] at hh
        simp only [if_true] at hh
        cases hh
        refine ⟨fun hf => Bool.noConfusion hf, fun _ => Inv_after_advance _ i⟩
      | false =>
        rw [hbust] at hh
        simp only [Bool.false_eq_true, if_false] at hh
        cases hh
        refine ⟨fun hf => Bool.noConfusion hf, fun _ => ⟨?_, ?_⟩⟩
        · intro i' hi'
          rw [hst] at hi'
          injection hi' with hii
          subst hii
          refine ⟨{ h0 with hand := h0.hand ++ [c] }, ?_, hc0⟩
          simpa using List.getElem?_set_eq_of_lt _ hilt
        · intro hd
          rw [hst] at hd
          exact BlackjackState.noConfusion hd
  | stay =>
    dsimp only at hh
    cases hh
    exact ⟨fun hf => Bool.noConfusion hf, fun _ => Inv_after_advance _ i⟩
  | double =>
    dsimp only at hh
    cases hcd : can_double h0.hand with
    | false =>
      rw [hcd] at hh
      simp only [Bool.false_eq_true, if_false] at hh
      cases hh
      exact ⟨fun _ => rfl, fun ht => Bool.noConfusion ht⟩
    | true =>
      rw [hcd] at hh
      simp only [if_true] at hh
      rcases hwd : Bank.withdraw g.bank h0.bet.amount with ⟨b, bank'⟩
      cases b with
      | false =>
        rw [hwd] at hh
        cases hh
        exact ⟨fun _ => rfl, fun ht => Bool.noConfusion ht⟩
      | true =>
        rw [hwd] at hh
        rcases hsh : g.shoe with _ | ⟨c, rest⟩
        · rw [hsh] at hh
          cases hh
        · rw [hsh] at hh
          cases hh
          exact ⟨fun hf => Bool.noConfusion hf, fun _ => Inv_after_advance _ i⟩
  | split =>
    dsimp only at hh
    cases hcs : can_split h0.hand (Game.splitContext g) with
    | false =>
      rw [hcs] at hh
      simp only [Bool.false_eq_true, if_false] at hh
      cases hh
      exact ⟨fun _ => rfl, fun ht => Bool.noConfusion ht⟩
    | true =>
      rw [hcs] at hh
      simp only [if_true] at hh
      by_cases hbal : g.bank.balance < h0.bet.amount
      · rw [if_pos hbal] at hh
        cases hh
        exact ⟨fun _ => rfl, fun ht => Bool.noConfusion ht⟩
      · rw [if_neg hbal] at hh
        rcases hwd : Bank.withdraw g.bank h0.bet.amount with ⟨b, bank'⟩
        cases b with
        | false =>
          rw [hwd] at hh
          cases hh
          exact ⟨fun _ => rfl, fun ht => Bool.noConfusion ht⟩
        | true =>
          rw [hwd] at hh
          obtain ⟨c0, c1, hhand⟩ := can_split_shape h0.hand (Game.splitContext g) hcs
          have hctx : Game.splitContext g = .noPreviousSplit := by
            cases hc : Game.splitContext g with
            | noPreviousSplit => rfl
            | alreadySplit =>
              rw [hc, can_split_alreadySplit] at hcs
              cases hcs
          have hlen : g.table.player_hands.length ≤ 1 := by
            by_contra hgt
            simp [Game.splitContext, Nat.lt_of_not_le hgt] at hctx
          have hi0 : i = 0 := by omega
          subst hi0
          obtain ⟨ph, hpha⟩ := List.length_eq_one.mp (by omega :
            g.table.player_hands.length = 1)
          have hph : g.table.player_hands = [h0] := by
            rw [hpha] at hh0 ⊢
            simpa using hh0
          rw [hhand] at hh
          simp only [List.get?_eq_getElem?] at hh
          rcases hsh : g.shoe with _ | ⟨n1, _ | ⟨n2, rest⟩⟩ <;> rw [hsh] at hh
          · cases hh
          · cases hh
          · simp only [List.getElem?_cons_zero, List.getElem?_cons_succ] at hh
            cases hh
            refine ⟨fun hf => Bool.noConfusion hf, fun _ => ⟨?_, ?_⟩⟩
            · intro i' hi'
              simp only [Game.transitionTo] at hi'
              injection hi' with hii
              subst hii
              refine ⟨{ h0 with hand := [c0, n1] }, ?_, hc0⟩
              simp [Game.transitionTo, hph]
            · intro hd
              simp only [Game.transitionTo] at hd
              exact BlackjackState.noConfusion hd

theorem apply_Inv (g g' : Game) (a : PlayerAction) (evs : List BEvent)
    (hInv : Inv g) (h : Game.apply g a = some (g', evs)) : Inv g' := by
  cases hst : g.state with
  | playerTurn i =>
    simp only [Game.apply, hst] at h
    obtain ⟨r, hhr, hbind⟩ := Option.bind_eq_some.mp h
    obtain ⟨hfalse, htrue⟩ := handlePlayerTurn_Inv g i a r hInv hst hhr
    cases hr1 : r.1 with
    | true =>
      rw [hr1] at hbind
      simp only [if_true] at hbind
      obtain ⟨⟨q1, q2⟩, hadv, heq⟩ := Option.map_eq_some'.mp hbind
      have hInvq := advanceAutoFuel_Inv 3 r.2.1 q1 q2 (htrue hr1) hadv
      cases heq
      exact hInvq
    | false =>
      rw [hr1] at hbind
      simp only [Bool.false_eq_true, if_false] at hbind
      cases hbind
      rw [hfalse hr1]
      exact hInv
  | dealing =>
    simp only [Game.apply, hst] at h
    cases h
    exact hInv
  | dealerTurn =>
    simp only [Game.apply, hst] at h
    cases h
    exact hInv
  | roundOver =>
    simp only [Game.apply, hst] at h
    cases h
    exact hInv

theorem requestNewRound_Inv (g g' : Game) (fresh : List Card) (evs : List BEvent)
    (hInv : Inv g) (h : Game.requestNewRound g fresh = some (g', evs)) : Inv g' := by
  rw [Game.requestNewRound] at h
  by_cases hro : g.state = BlackjackState.roundOver
  · rw [if_pos hro] at h
    obtain ⟨⟨q1, q2⟩, hsr, heq⟩ := Option.map_eq_some'.mp h
    have := startRound_Inv _ q1 q2 hsr
    cases heq
    exact this
  · rw [if_neg hro] at h
    cases h
    exact hInv

/-- C10: in every state reachable from `Blackjack::new` via `start_round`,
`apply` and `request_new_round`, a `PlayerTurn { hand_index }` phase always
carries a valid index into the player hands whose hand is still
incomplete, so the indexing in `handle_player_turn`, `available_actions`
and `view` never goes out of bounds. -/
theorem playerTurn_index_invariant (g : Game) (hreach : Reachable g) :
    ∀ i, g.state = BlackjackState.playerTurn i →
      ∃ h, g.table.player_hands.get? i = some h ∧ h.is_complete = false := by
  have hInv : Inv g := by
    induction hreach with
    | base shoe =>
      exact ⟨fun i hi => BlackjackState.noConfusion hi, fun _ => ⟨_, rfl, rfl⟩⟩
    | start g g' evs _ hs ih => exact startRound_Inv g g' evs hs
    | step g g' a evs _ hs ih => exact apply_Inv g g' a evs ih hs
    | newRound g g' fresh evs _ hs ih => exact requestNewRound_Inv g g' fresh evs ih hs
  intro i hi
  obtain ⟨h, hh, hc⟩ := hInv.1 i hi
  refine ⟨h, ?_, hc⟩
  rw [List.get?_eq_getElem?]
  exact hh

/-- The game right after starting a round on the shoe 2♠ 3♥ 4♣ 5♦
(a PlayerTurn-0 position). -/
def afterStartPair : Game × List BEvent :=
  (Game.startRound (Game.new distinctShoe)).getD (Game.new distinctShoe, [])

/-- Concrete instance of C10 at the reachable state `afterStartPair.1`. -/
theorem playerTurn_index_invariant_witness :
    ∃ h, afterStartPair.1.table.player_hands.get? 0 = some h ∧ h.is_complete = false :=
  playerTurn_index_invariant afterStartPair.1
    (Reachable.start _ _ afterStartPair.2 (Reachable.base distinctShoe) (by decide))
    0 (by decide)

end CardGames
